import Mathlib

/-!
Shallow embedding of the `Matrix<T>` class of `src/matrix.cpp`, instantiated
at the exact element type `Int` (the C++ code is a template over a numeric
type `T` with `+ - * /` and default construction; `T() = 0`).

Modelling conventions:
* `std::vector<T> mat` becomes `mat : List Int`; the linear offset
  `i * cols + j` used by `operator()` is kept literally.
* `assert`-guarded operations are modelled as `Option`-returning functions;
  `none` stands for the fail-fast halt of a failed assertion.
* Loops that write each cell of a freshly allocated result exactly once
  (broadcast addition cases 2/3, `transpose`, `diag_vec`, matrix-vector
  multiplication) are rendered as row-major list builders producing the same
  final storage.  The cache-conscious `operator*` accumulation loop, whose
  write order is the point of claim C1, is instead embedded literally as
  nested folds over `List.set`.
-/

/-- The `Matrix<T>` class at `T = Int`: fields `rows`, `cols` and the
row-major storage vector `mat`. -/
structure QSMatrix where
  rows : Nat
  cols : Nat
  mat : List Int
deriving DecidableEq, Repr

/-- The §3 data-model invariant: `storage.length == rows * cols`. -/
def QSMatrix.wf (M : QSMatrix) : Prop := M.mat.length = M.rows * M.cols

instance (M : QSMatrix) : Decidable M.wf := by unfold QSMatrix.wf; infer_instance

/-- `operator()(row, col)`: read the element stored at linear offset
`row * cols + col` (in-bounds reads only are used by the theorems;
out-of-bounds reads default to 0). -/
def QSMatrix.get (M : QSMatrix) (row col : Nat) : Int :=
  M.mat.getD (row * M.cols + col) 0

/-- Row-major assembly of an `r x c` result whose cell `(i, j)` holds
`f i j`: the storage produced by a loop nest that writes every cell of a
zero-initialised `r x c` matrix exactly once. -/
def buildMat : Nat → Nat → (Nat → Nat → Int) → List Int
  | 0, _, _ => []
  | r + 1, c, f => buildMat r c f ++ (List.range c).map (f r)

/-- Parameter constructor `Matrix(_rows, _cols, _initial)` (matrix.cpp:13-17):
storage `std::vector<T>(_rows * _cols, _initial)`. -/
def QSMatrix.ofFilled (r c : Nat) (v : Int) : QSMatrix :=
  ⟨r, c, List.replicate (r * c) v⟩

/-- Constructor from a vector-of-vectors (matrix.cpp:21-30):
`rows = _mat.size()`, `cols = _mat.empty() ? 0 : _mat[0].size()`; each inner
row is asserted to have length `cols` and copied at offset `i * cols`, so the
storage is the row-major concatenation.  A ragged input fails the assertion
(`none`). -/
def QSMatrix.ofNested (rss : List (List Int)) : Option QSMatrix :=
  let c : Nat := match rss with
    | [] => 0
    | rs :: _ => rs.length
  if rss.all (fun rs => rs.length = c) then
    some ⟨rss.length, c, rss.flatten⟩
  else
    none

/-- Constructor from an already row-major flat vector (matrix.cpp:34-38):
`rows`, `cols` and `mat` are taken verbatim — there is no length check. -/
def QSMatrix.ofFlat (l : List Int) (r c : Nat) : QSMatrix :=
  ⟨r, c, l⟩

/-- `initRandomQSMatrix` (matrix.cpp:41-51) with the pseudo-random draws
abstracted: `d i` is the value of the `i`-th call `d(gen)` of the shared
generator stream.  The loop overwrites every cell of a zero-filled
`_rows x _cols` matrix with successive draws. -/
def QSMatrix.initRandomQSMatrix (r c : Nat) (d : Nat → Int) : QSMatrix :=
  ⟨r, c, (List.range (r * c)).map d⟩

/-- Copy constructor (matrix.cpp:63-67): deep copy of all three fields. -/
def QSMatrix.copyCtor (rhs : QSMatrix) : QSMatrix :=
  ⟨rhs.rows, rhs.cols, rhs.mat⟩

/-- Move constructor (matrix.cpp:54-60): the pair is
(the constructed matrix, the source after the move).  The source's `rows`
and `cols` are set to 0 and its vector is left moved-from (empty). -/
def QSMatrix.moveCtor (rhs : QSMatrix) : QSMatrix × QSMatrix :=
  (⟨rhs.rows, rhs.cols, rhs.mat⟩, ⟨0, 0, []⟩)

/-- Copy assignment (matrix.cpp:74-82): `isSelf` models the address check
`this == &rhs`; on self-assignment the target is returned unchanged,
otherwise all three fields are copied from `rhs`. -/
def QSMatrix.copyAssign (lhs rhs : QSMatrix) (isSelf : Bool) : QSMatrix :=
  if isSelf then lhs else ⟨rhs.rows, rhs.cols, rhs.mat⟩

/-- Move assignment (matrix.cpp:85-93): the pair is
(the assigned target, the source after the move); when `this != &rhs` the
source's dimensions are exchanged to 0 and its vector moved out. -/
def QSMatrix.moveAssign (lhs rhs : QSMatrix) (isSelf : Bool) :
    QSMatrix × QSMatrix :=
  if isSelf then (lhs, rhs) else (⟨rhs.rows, rhs.cols, rhs.mat⟩, ⟨0, 0, []⟩)

/-- Broadcasting `operator+` (matrix.cpp:97-131).  The three shape cases are
tried in source order; the final `assert(false)` branch is `none`.
Case 1 is the `std::transform` over both storages; cases 2 and 3 are the
loop nests writing `result(i,j) = (*this)(i,j) + rhs(0,j)` resp.
`result(i,j) = (*this)(0,j) + rhs(i,j)` into a fresh row-major result. -/
def QSMatrix.add (A B : QSMatrix) : Option QSMatrix :=
  if A.rows = B.rows ∧ A.cols = B.cols then
    some ⟨A.rows, A.cols, List.zipWith (fun a b => a + b) A.mat B.mat⟩
  else if B.rows = 1 ∧ B.cols = A.cols then
    some ⟨A.rows, A.cols, buildMat A.rows A.cols (fun i j => A.get i j + B.get 0 j)⟩
  else if A.rows = 1 ∧ A.cols = B.cols then
    some ⟨B.rows, A.cols, buildMat B.rows A.cols (fun i j => A.get 0 j + B.get i j)⟩
  else
    none

/-- `operator-` (matrix.cpp:144-150): asserts identical shape, then the
elementwise `std::transform` with `std::minus`. -/
def QSMatrix.sub (A B : QSMatrix) : Option QSMatrix :=
  if A.rows = B.rows ∧ A.cols = B.cols then
    some ⟨A.rows, A.cols, List.zipWith (fun a b => a - b) A.mat B.mat⟩
  else
    none

/-- `hadamardMultiplication` (matrix.cpp:324-331): asserts identical shape,
then the elementwise `std::transform` with `std::multiplies`. -/
def QSMatrix.hadamardMultiplication (A B : QSMatrix) : Option QSMatrix :=
  if A.rows = B.rows ∧ A.cols = B.cols then
    some ⟨A.rows, A.cols, List.zipWith (fun a b => a * b) A.mat B.mat⟩
  else
    none

/-- Scalar `operator+` (matrix.cpp:212-218). -/
def QSMatrix.scalarAdd (A : QSMatrix) (rhs : Int) : QSMatrix :=
  ⟨A.rows, A.cols, A.mat.map (fun v => v + rhs)⟩

/-- Scalar `operator-` (matrix.cpp:221-227). -/
def QSMatrix.scalarSub (A : QSMatrix) (rhs : Int) : QSMatrix :=
  ⟨A.rows, A.cols, A.mat.map (fun v => v - rhs)⟩

/-- Scalar `operator*` (matrix.cpp:230-236). -/
def QSMatrix.scalarMul (A : QSMatrix) (rhs : Int) : QSMatrix :=
  ⟨A.rows, A.cols, A.mat.map (fun v => v * rhs)⟩

/-- Scalar `operator/` (matrix.cpp:248-254); `Int` division truncates toward
zero like C++ integer division. -/
def QSMatrix.scalarDiv (A : QSMatrix) (rhs : Int) : QSMatrix :=
  ⟨A.rows, A.cols, A.mat.map (fun v => v / rhs)⟩

/-- `component_wise_transformation` (matrix.cpp:283-288): `std::transform`
with the supplied pure function. -/
def QSMatrix.component_wise_transformation (A : QSMatrix) (f : Int → Int) :
    QSMatrix :=
  ⟨A.rows, A.cols, A.mat.map f⟩

/-- `result.mat[idx] += v` — the accumulating write in the multiplication
inner loop. -/
def writeAdd (l : List Int) (idx : Nat) (v : Int) : List Int :=
  l.set idx (l.getD idx 0 + v)

/-- Inner `j` loop of `operator*` (matrix.cpp:174-176): for `j` from 0 to
`jcnt - 1`, `res[resOffset + j] += temp * bMat[rhsOffset + j]`. -/
def jLoop (temp : Int) (bMat : List Int) (rhsOffset resOffset : Nat) :
    Nat → List Int → List Int
  | 0, res => res
  | j + 1, res =>
    writeAdd (jLoop temp bMat rhsOffset resOffset j res) (resOffset + j)
      (temp * bMat.getD (rhsOffset + j) 0)

/-- Middle `k` loop of `operator*` (matrix.cpp:169-177): for `k` from 0 to
`kcnt - 1`, run the `j` loop with `temp = aMat[i * n + k]`,
`rhs_offset = k * p`, `result_offset = i * p`. -/
def kLoop (aMat bMat : List Int) (i n p : Nat) : Nat → List Int → List Int
  | 0, res => res
  | k + 1, res =>
    jLoop (aMat.getD (i * n + k) 0) bMat (k * p) (i * p) p
      (kLoop aMat bMat i n p k res)

/-- Outer `i` loop of `operator*` (matrix.cpp:168-178). -/
def iLoop (aMat bMat : List Int) (n p : Nat) : Nat → List Int → List Int
  | 0, res => res
  | i + 1, res => kLoop aMat bMat i n p n (iLoop aMat bMat n p i res)

/-- Cache-conscious `operator*` (matrix.cpp:164-180): asserts
`cols == rhs.rows`, allocates a zero `rows x rhs.cols` result and runs the
`i → k → j` accumulation loop nest over the flat storages. -/
def QSMatrix.mul (A B : QSMatrix) : Option QSMatrix :=
  if A.cols = B.rows then
    some ⟨A.rows, B.cols,
      iLoop A.mat B.mat A.cols B.cols A.rows
        (List.replicate (A.rows * B.cols) 0)⟩
  else
    none

/-- The naive `i → j → k` reference definition of the product, written from
the spec's words (§4.4): element `(i, j)` is the inner product of row `i`
of `A` and column `j` of `B`, a triple-nested summation. -/
def QSMatrix.matMulSpec (A B : QSMatrix) : QSMatrix :=
  ⟨A.rows, B.cols,
    buildMat A.rows B.cols (fun i j =>
      ((List.range A.cols).map (fun k => A.get i k * B.get k j)).sum)⟩

/-- `transpose` (matrix.cpp:190-202): a fresh `cols x rows` matrix whose
cell `(j, i)` is `(*this)(i, j)`; each cell of the zero-initialised result
is written exactly once by the loop nest. -/
def QSMatrix.transpose (A : QSMatrix) : QSMatrix :=
  ⟨A.cols, A.rows, buildMat A.cols A.rows (fun j i => A.get i j)⟩

/-- Matrix-vector `operator*` (matrix.cpp:257-269): asserts
`rhs.size() == cols`; returns the length-`rows` vector of row inner
products together with the state of `*this` after the call (the method is
non-const, so the post-state is part of the embedding). -/
def QSMatrix.vecMul (A : QSMatrix) (rhs : List Int) :
    Option (List Int × QSMatrix) :=
  if rhs.length = A.cols then
    some ((List.range A.rows).map (fun i =>
            ((List.range A.cols).map (fun j => A.get i j * rhs.getD j 0)).sum),
          ⟨A.rows, A.cols, A.mat⟩)
  else
    none

/-- `diag_vec` (matrix.cpp:272-280): the length-`min rows cols` vector of
diagonal elements, together with the state of `*this` after the call (the
method is non-const, so the post-state is part of the embedding). -/
def QSMatrix.diag_vec (A : QSMatrix) : List Int × QSMatrix :=
  ((List.range (min A.rows A.cols)).map (fun i => A.get i i),
   ⟨A.rows, A.cols, A.mat⟩)

/-- In-place elementwise loop shared by the compound-assignment operators
(`operator+=` matrix.cpp:134-141, `operator-=` matrix.cpp:153-160,
`hadamardMultiplicationInPlace` matrix.cpp:334-341): for `i` from 0 to
`cnt - 1`, `mat[i] = f (mat[i]) (rhsMat[i])`. -/
def inPlaceLoop (f : Int → Int → Int) (rhsMat : List Int) :
    Nat → List Int → List Int
  | 0, m => m
  | i + 1, m =>
    let m' := inPlaceLoop f rhsMat i m
    m'.set i (f (m'.getD i 0) (rhsMat.getD i 0))

/-- In-place scalar loop of `operator*=` by a scalar (matrix.cpp:239-245):
for `i` from 0 to `cnt - 1`, `mat[i] = f (mat[i])`. -/
def scalarLoop (f : Int → Int) : Nat → List Int → List Int
  | 0, m => m
  | i + 1, m =>
    let m' := scalarLoop f i m
    m'.set i (f (m'.getD i 0))

/-- `operator+=` (matrix.cpp:134-141): asserts identical shape, then
`mat[i] += rhs.mat[i]` for `i < rows * cols`; returns the mutated state of
`*this`. -/
def QSMatrix.addAssign (A B : QSMatrix) : Option QSMatrix :=
  if A.rows = B.rows ∧ A.cols = B.cols then
    some ⟨A.rows, A.cols,
      inPlaceLoop (fun a b => a + b) B.mat (A.rows * A.cols) A.mat⟩
  else
    none

/-- `operator-=` (matrix.cpp:153-160): asserts identical shape, then
`mat[i] -= rhs.mat[i]` for `i < rows * cols`. -/
def QSMatrix.subAssign (A B : QSMatrix) : Option QSMatrix :=
  if A.rows = B.rows ∧ A.cols = B.cols then
    some ⟨A.rows, A.cols,
      inPlaceLoop (fun a b => a - b) B.mat (A.rows * A.cols) A.mat⟩
  else
    none

/-- Matrix `operator*=` (matrix.cpp:183-187): defined as
`*this = std::move((*this) * rhs)`, so the post-state of `*this` is the
product. -/
def QSMatrix.mulAssign (A B : QSMatrix) : Option QSMatrix :=
  A.mul B

/-- Scalar `operator*=` (matrix.cpp:239-245): `mat[i] *= rhs` for
`i < rows * cols`. -/
def QSMatrix.scalarMulAssign (A : QSMatrix) (rhs : Int) : QSMatrix :=
  ⟨A.rows, A.cols, scalarLoop (fun v => v * rhs) (A.rows * A.cols) A.mat⟩

/-- `transpose_in_place` (matrix.cpp:205-209): defined as
`*this = std::move(this->transpose())`. -/
def QSMatrix.transpose_in_place (A : QSMatrix) : QSMatrix :=
  A.transpose

/-- `hadamardMultiplicationInPlace` (matrix.cpp:334-341): asserts identical
shape, then `mat[i] *= rhs.mat[i]` for `i < rows * cols`. -/
def QSMatrix.hadamardMultiplicationInPlace (A B : QSMatrix) :
    Option QSMatrix :=
  if A.rows = B.rows ∧ A.cols = B.cols then
    some ⟨A.rows, A.cols,
      inPlaceLoop (fun a b => a * b) B.mat (A.rows * A.cols) A.mat⟩
  else
    none

/-- `component_wise_transformation_in_place` (matrix.cpp:291-295):
`std::transform` writing back into `mat`. -/
def QSMatrix.component_wise_transformation_in_place (A : QSMatrix)
    (f : Int → Int) : QSMatrix :=
  ⟨A.rows, A.cols, A.mat.map f⟩

/-- A write through the mutable-reference `operator()` (matrix.cpp:298-302):
asserts `row < rows && col < cols`, then stores at offset
`row * cols + col`. -/
def QSMatrix.setElem (M : QSMatrix) (row col : Nat) (v : Int) :
    Option QSMatrix :=
  if row < M.rows ∧ col < M.cols then
    some ⟨M.rows, M.cols, M.mat.set (row * M.cols + col) v⟩
  else
    none

/-! ### Basic list lemmas used by the loop characterisations -/

theorem getD_set_eq_ite (l : List Int) (i j : Nat) (v : Int) :
    (l.set i v).getD j 0 = if i = j ∧ j < l.length then v else l.getD j 0 := by
  induction l generalizing i j with
  | nil => simp
  | cons a l ih =>
    cases i with
    | zero =>
      cases j with
      | zero => simp
      | succ j => simp
    | succ i =>
      cases j with
      | zero => simp
      | succ j =>
        simp only [List.set_cons_succ, List.getD_cons_succ, List.length_cons]
        rw [ih]
        split_ifs with h1 h2 h2 <;> first | rfl | omega

theorem getD_replicate_zero (n idx : Nat) :
    (List.replicate n (0 : Int)).getD idx 0 = 0 := by
  induction n generalizing idx with
  | zero => simp
  | succ n ih =>
    cases idx with
    | zero => simp [List.replicate_succ]
    | succ idx => simp [List.replicate_succ, ih]

theorem getD_map_range (c j : Nat) (g : Nat → Int) (hj : j < c) :
    ((List.range c).map g).getD j 0 = g j := by
  have h : j < ((List.range c).map g).length := by simpa using hj
  rw [List.getD_eq_getElem _ _ h, List.getElem_map, List.getElem_range]

theorem getD_zipWith (f : Int → Int → Int) (l₁ l₂ : List Int) (i : Nat)
    (h₁ : i < l₁.length) (h₂ : i < l₂.length) :
    (List.zipWith f l₁ l₂).getD i 0 = f (l₁.getD i 0) (l₂.getD i 0) := by
  induction l₁ generalizing l₂ i with
  | nil => simp at h₁
  | cons a l ih =>
    cases l₂ with
    | nil => simp at h₂
    | cons b m =>
      cases i with
      | zero => simp
      | succ i =>
        simp only [List.zipWith_cons_cons, List.getD_cons_succ]
        exact ih m i (by simpa using h₁) (by simpa using h₂)

theorem index_lt_of_lt (i j r c : Nat) (hi : i < r) (hj : j < c) :
    i * c + j < r * c := by
  have h1 : i * c + j < (i + 1) * c := by
    rw [Nat.succ_mul]; omega
  have h2 : (i + 1) * c ≤ r * c := Nat.mul_le_mul_right c hi
  omega

/-! ### Lengths of the multiplication loop states -/

theorem length_writeAdd (l : List Int) (idx : Nat) (v : Int) :
    (writeAdd l idx v).length = l.length := by
  simp [writeAdd]

theorem length_jLoop (t : Int) (b : List Int) (ro co : Nat) (j : Nat)
    (res : List Int) : (jLoop t b ro co j res).length = res.length := by
  induction j generalizing res with
  | zero => rfl
  | succ j ih => simp [jLoop, length_writeAdd, ih]

theorem length_kLoop (a b : List Int) (i n p : Nat) (k : Nat)
    (res : List Int) : (kLoop a b i n p k res).length = res.length := by
  induction k generalizing res with
  | zero => rfl
  | succ k ih => simp [kLoop, length_jLoop, ih]

theorem length_iLoop (a b : List Int) (n p : Nat) (icnt : Nat)
    (res : List Int) : (iLoop a b n p icnt res).length = res.length := by
  induction icnt generalizing res with
  | zero => rfl
  | succ i ih => simp [iLoop, length_kLoop, ih]

/-! ### Element characterisation of the `i → k → j` accumulation loops -/

theorem getD_jLoop (t : Int) (b : List Int) (ro co : Nat) (jcnt : Nat)
    (res : List Int) (idx : Nat) :
    (jLoop t b ro co jcnt res).getD idx 0 =
      if co ≤ idx ∧ idx < co + jcnt ∧ idx < res.length
      then res.getD idx 0 + t * b.getD (ro + (idx - co)) 0
      else res.getD idx 0 := by
  induction jcnt generalizing res with
  | zero =>
    rw [jLoop, if_neg]
    omega
  | succ j ih =>
    rw [jLoop, writeAdd, getD_set_eq_ite, length_jLoop]
    by_cases hset : co + j = idx ∧ idx < res.length
    · rw [if_pos hset]
      obtain ⟨hidx, hlen⟩ := hset
      subst hidx
      rw [ih, if_neg (by omega), if_pos (by omega), Nat.add_sub_cancel_left]
    · rw [if_neg hset, ih]
      split_ifs <;> first | rfl | omega

theorem getD_kLoop (a b : List Int) (i n p : Nat) (kcnt : Nat)
    (res : List Int) (idx : Nat) :
    (kLoop a b i n p kcnt res).getD idx 0 =
      if i * p ≤ idx ∧ idx < i * p + p ∧ idx < res.length
      then res.getD idx 0 +
        ((List.range kcnt).map (fun k =>
          a.getD (i * n + k) 0 * b.getD (k * p + (idx - i * p)) 0)).sum
      else res.getD idx 0 := by
  induction kcnt generalizing res with
  | zero =>
    rw [kLoop]
    split_ifs <;> simp
  | succ k ih =>
    rw [kLoop, getD_jLoop, length_kLoop, ih]
    by_cases h : i * p ≤ idx ∧ idx < i * p + p ∧ idx < res.length
    · rw [if_pos h, if_pos h, if_pos h, List.range_succ, List.map_append,
        List.sum_append]
      simp [add_assoc]
    · rw [if_neg h, if_neg h, if_neg h]

theorem iLoop_untouched (a b : List Int) (n p : Nat) (icnt : Nat)
    (res : List Int) (idx : Nat) (h : icnt * p ≤ idx) :
    (iLoop a b n p icnt res).getD idx 0 = res.getD idx 0 := by
  induction icnt generalizing res with
  | zero => rfl
  | succ i ih =>
    have hstep : (i + 1) * p = i * p + p := by ring
    rw [iLoop, getD_kLoop, if_neg (by omega)]
    exact ih res (by omega)

theorem getD_iLoop (a b : List Int) (n p : Nat) (icnt : Nat)
    (res : List Int) (i j : Nat) (hi : i < icnt) (hj : j < p)
    (hlen : i * p + j < res.length) :
    (iLoop a b n p icnt res).getD (i * p + j) 0 =
      res.getD (i * p + j) 0 +
        ((List.range n).map (fun k =>
          a.getD (i * n + k) 0 * b.getD (k * p + j) 0)).sum := by
  induction icnt generalizing res with
  | zero => omega
  | succ ic ih =>
    rw [iLoop]
    by_cases hic : i = ic
    · subst hic
      rw [getD_kLoop, length_iLoop,
        if_pos (by refine ⟨by omega, by omega, hlen⟩),
        iLoop_untouched a b n p i res (i * p + j) (by omega)]
      have hsub : i * p + j - i * p = j := by omega
      rw [hsub]
    · have hi' : i < ic := by omega
      have hout : i * p + j < ic * p := by
        have h1 : i * p + j < (i + 1) * p := by rw [Nat.succ_mul]; omega
        have h2 : (i + 1) * p ≤ ic * p := Nat.mul_le_mul_right p (by omega)
        omega
      rw [getD_kLoop, if_neg (by omega)]
      exact ih res hi' hlen

/-! ### Characterisation of `buildMat` and remaining list helpers -/

theorem length_buildMat (r c : Nat) (f : Nat → Nat → Int) :
    (buildMat r c f).length = r * c := by
  induction r with
  | zero => simp [buildMat]
  | succ r ih => simp [buildMat, ih, Nat.succ_mul]

theorem getD_buildMat (r c : Nat) (f : Nat → Nat → Int) (i j : Nat)
    (hi : i < r) (hj : j < c) :
    (buildMat r c f).getD (i * c + j) 0 = f i j := by
  induction r with
  | zero => omega
  | succ r ih =>
    rw [buildMat]
    by_cases hir : i = r
    · subst hir
      have hb : (buildMat i c f).length ≤ i * c + j := by
        rw [length_buildMat]; omega
      rw [List.getD_append_right _ _ _ _ hb, length_buildMat,
        Nat.add_sub_cancel_left]
      exact getD_map_range c j (f i) hj
    · have hi' : i < r := by omega
      have hb : i * c + j < (buildMat r c f).length := by
        rw [length_buildMat]; exact index_lt_of_lt i j r c hi' hj
      rw [List.getD_append _ _ _ _ hb]
      exact ih hi'

theorem getD_buildMat_div_mod (r c : Nat) (f : Nat → Nat → Int) (idx : Nat)
    (h : idx < r * c) :
    (buildMat r c f).getD idx 0 = f (idx / c) (idx % c) := by
  have hc : 0 < c := by
    rcases Nat.eq_zero_or_pos c with h0 | h0
    · subst h0; simp at h
    · exact h0
  have hi : idx / c < r := by
    rw [Nat.div_lt_iff_lt_mul hc]; exact h
  have hj : idx % c < c := Nat.mod_lt idx hc
  have hidx : idx / c * c + idx % c = idx := by
    have hdm := Nat.div_add_mod idx c
    rw [Nat.mul_comm (idx / c) c]
    exact hdm
  calc (buildMat r c f).getD idx 0
      = (buildMat r c f).getD (idx / c * c + idx % c) 0 := by rw [hidx]
    _ = f (idx / c) (idx % c) := getD_buildMat r c f _ _ hi hj

theorem list_ext_getD (l₁ l₂ : List Int) (hlen : l₁.length = l₂.length)
    (h : ∀ idx, idx < l₁.length → l₁.getD idx 0 = l₂.getD idx 0) :
    l₁ = l₂ := by
  apply List.ext_getElem hlen
  intro n h₁ h₂
  have hd := h n h₁
  rwa [List.getD_eq_getElem _ _ h₁, List.getD_eq_getElem _ _ h₂] at hd

theorem length_flatten_of_all (rss : List (List Int)) (c : Nat)
    (h : ∀ rs ∈ rss, rs.length = c) :
    rss.flatten.length = rss.length * c := by
  induction rss with
  | nil => simp
  | cons rs rss ih =>
    simp only [List.flatten_cons, List.length_append, List.length_cons]
    rw [h rs (by simp), ih (fun x hx => h x (by simp [hx])), Nat.succ_mul]
    omega

theorem zipWith_sub_add_cancel (l₁ l₂ : List Int) (h : l₁.length = l₂.length) :
    List.zipWith (fun a b => a - b)
      (List.zipWith (fun a b => a + b) l₁ l₂) l₂ = l₁ := by
  induction l₁ generalizing l₂ with
  | nil => simp
  | cons a l ih =>
    cases l₂ with
    | nil => simp at h
    | cons b m =>
      simp only [List.zipWith_cons_cons, List.cons.injEq]
      exact ⟨by ring, ih m (by simpa using h)⟩

theorem wf_mk_zipWith (A B : QSMatrix) (f : Int → Int → Int)
    (hA : A.wf) (hB : B.wf) (hr : A.rows = B.rows) (hc : A.cols = B.cols) :
    (QSMatrix.mk A.rows A.cols (List.zipWith f A.mat B.mat)).wf := by
  show (List.zipWith f A.mat B.mat).length = A.rows * A.cols
  rw [List.length_zipWith, hA, hB, ← hr, ← hc, min_self]

/-! ### Claim theorems -/

/-- C1: for matrices `A`, `B` with `A.cols = B.rows`, the cache-conscious
`i → k → j` product `A.mul B` succeeds and equals the naive `i → j → k`
triple-nested-summation reference `A.matMulSpec B`; that reference has shape
`(A.rows, B.cols)` and its element `(i, j)` is the inner product of row `i`
of `A` and column `j` of `B`. -/
theorem mul_ikj_refines_naive (A B : QSMatrix) (h : A.cols = B.rows) :
    A.mul B = some (A.matMulSpec B) ∧
    (A.matMulSpec B).rows = A.rows ∧ (A.matMulSpec B).cols = B.cols ∧
    ∀ i j, i < A.rows → j < B.cols →
      (A.matMulSpec B).get i j =
        ((List.range A.cols).map (fun k => A.get i k * B.get k j)).sum := by
  refine ⟨?_, rfl, rfl, ?_⟩
  · rw [QSMatrix.mul, if_pos h, QSMatrix.matMulSpec]
    simp only [Option.some.injEq, QSMatrix.mk.injEq, true_and]
    apply list_ext_getD
    · rw [length_iLoop, List.length_replicate, length_buildMat]
    · intro idx hidx
      rw [length_iLoop, List.length_replicate] at hidx
      have hp : 0 < B.cols := by
        rcases Nat.eq_zero_or_pos B.cols with h0 | h0
        · rw [h0] at hidx; simp at hidx
        · exact h0
      have hi : idx / B.cols < A.rows := by
        rw [Nat.div_lt_iff_lt_mul hp]; exact hidx
      have hj : idx % B.cols < B.cols := Nat.mod_lt idx hp
      have hidx2 : idx / B.cols * B.cols + idx % B.cols = idx := by
        have hdm := Nat.div_add_mod idx B.cols
        rw [Nat.mul_comm (idx / B.cols) B.cols]
        exact hdm
      have hlen : idx / B.cols * B.cols + idx % B.cols <
          (List.replicate (A.rows * B.cols) (0 : Int)).length := by
        rw [List.length_replicate, hidx2]; exact hidx
      calc (iLoop A.mat B.mat A.cols B.cols A.rows
              (List.replicate (A.rows * B.cols) 0)).getD idx 0
          = (iLoop A.mat B.mat A.cols B.cols A.rows
              (List.replicate (A.rows * B.cols) 0)).getD
              (idx / B.cols * B.cols + idx % B.cols) 0 := by rw [hidx2]
        _ = (List.replicate (A.rows * B.cols) (0 : Int)).getD
              (idx / B.cols * B.cols + idx % B.cols) 0 +
              ((List.range A.cols).map (fun k =>
                A.mat.getD (idx / B.cols * A.cols + k) 0 *
                B.mat.getD (k * B.cols + idx % B.cols) 0)).sum :=
            getD_iLoop A.mat B.mat A.cols B.cols A.rows _ _ _ hi hj hlen
        _ = ((List.range A.cols).map (fun k =>
              A.mat.getD (idx / B.cols * A.cols + k) 0 *
              B.mat.getD (k * B.cols + idx % B.cols) 0)).sum := by
            rw [getD_replicate_zero, zero_add]
        _ = (buildMat A.rows B.cols (fun i j =>
              ((List.range A.cols).map (fun k =>
                A.get i k * B.get k j)).sum)).getD idx 0 := by
            rw [getD_buildMat_div_mod A.rows B.cols _ idx hidx]
            rfl
  · intro i j hi hj
    exact getD_buildMat A.rows B.cols _ i j hi hj

/-- C2: `A + B` resolves exactly the three shape cases in source priority
order: (1) identical shapes give elementwise addition with `A`'s shape;
(2) otherwise a single-row `B` with `B.cols = A.cols` is broadcast over the
rows of `A`; (3) otherwise a single-row `A` with `A.cols = B.cols` is
broadcast over the rows of `B`. -/
theorem add_broadcast_three_cases (A B : QSMatrix) (hA : A.wf) (hB : B.wf) :
    (A.rows = B.rows ∧ A.cols = B.cols →
      ∃ C, A.add B = some C ∧ C.rows = A.rows ∧ C.cols = A.cols ∧
        ∀ i j, i < A.rows → j < A.cols →
          C.get i j = A.get i j + B.get i j) ∧
    (¬(A.rows = B.rows ∧ A.cols = B.cols) → B.rows = 1 ∧ B.cols = A.cols →
      ∃ C, A.add B = some C ∧ C.rows = A.rows ∧ C.cols = A.cols ∧
        ∀ i j, i < A.rows → j < A.cols →
          C.get i j = A.get i j + B.get 0 j) ∧
    (¬(A.rows = B.rows ∧ A.cols = B.cols) → ¬(B.rows = 1 ∧ B.cols = A.cols) →
      A.rows = 1 ∧ A.cols = B.cols →
      ∃ C, A.add B = some C ∧ C.rows = B.rows ∧ C.cols = B.cols ∧
        ∀ i j, i < B.rows → j < B.cols →
          C.get i j = A.get 0 j + B.get i j) := by
  refine ⟨?_, ?_, ?_⟩
  · rintro ⟨hr, hc⟩
    refine ⟨⟨A.rows, A.cols, List.zipWith (fun a b => a + b) A.mat B.mat⟩,
      by rw [QSMatrix.add, if_pos ⟨hr, hc⟩], rfl, rfl, ?_⟩
    intro i j hi hj
    have hbA : i * A.cols + j < A.mat.length := by
      rw [hA]; exact index_lt_of_lt i j A.rows A.cols hi hj
    have hbB : i * A.cols + j < B.mat.length := by
      rw [hB, ← hr, ← hc]; exact index_lt_of_lt i j A.rows A.cols hi hj
    show (List.zipWith (fun a b => a + b) A.mat B.mat).getD (i * A.cols + j) 0
      = A.mat.getD (i * A.cols + j) 0 + B.mat.getD (i * B.cols + j) 0
    rw [getD_zipWith _ _ _ _ hbA hbB, hc]
  · rintro hn1 ⟨hbr, hbc⟩
    refine ⟨⟨A.rows, A.cols,
        buildMat A.rows A.cols (fun i j => A.get i j + B.get 0 j)⟩,
      by rw [QSMatrix.add, if_neg hn1, if_pos ⟨hbr, hbc⟩], rfl, rfl, ?_⟩
    intro i j hi hj
    exact getD_buildMat A.rows A.cols _ i j hi hj
  · rintro hn1 hn2 ⟨har, hac⟩
    refine ⟨⟨B.rows, A.cols,
        buildMat B.rows A.cols (fun i j => A.get 0 j + B.get i j)⟩,
      by rw [QSMatrix.add, if_neg hn1, if_neg hn2, if_pos ⟨har, hac⟩],
      rfl, hac, ?_⟩
    intro i j hi hj
    exact getD_buildMat B.rows A.cols _ i j hi (by omega)

/-- C2 witness: a concrete `2 x 2` matrix plus a concrete `1 x 2` row vector,
exercising the broadcast branch of `add_broadcast_three_cases`. -/
theorem add_broadcast_three_cases_witness :
    (QSMatrix.ofFlat [1, 2, 3, 4] 2 2).wf ∧ (QSMatrix.ofFlat [10, 20] 1 2).wf ∧
    ((QSMatrix.ofFlat [1, 2, 3, 4] 2 2).rows = (QSMatrix.ofFlat [10, 20] 1 2).rows ∧
        (QSMatrix.ofFlat [1, 2, 3, 4] 2 2).cols = (QSMatrix.ofFlat [10, 20] 1 2).cols →
      ∃ C, (QSMatrix.ofFlat [1, 2, 3, 4] 2 2).add (QSMatrix.ofFlat [10, 20] 1 2) = some C ∧
        C.rows = (QSMatrix.ofFlat [1, 2, 3, 4] 2 2).rows ∧
        C.cols = (QSMatrix.ofFlat [1, 2, 3, 4] 2 2).cols ∧
        ∀ i j, i < (QSMatrix.ofFlat [1, 2, 3, 4] 2 2).rows →
          j < (QSMatrix.ofFlat [1, 2, 3, 4] 2 2).cols →
          C.get i j = (QSMatrix.ofFlat [1, 2, 3, 4] 2 2).get i j +
            (QSMatrix.ofFlat [10, 20] 1 2).get i j) ∧
    (¬((QSMatrix.ofFlat [1, 2, 3, 4] 2 2).rows = (QSMatrix.ofFlat [10, 20] 1 2).rows ∧
        (QSMatrix.ofFlat [1, 2, 3, 4] 2 2).cols = (QSMatrix.ofFlat [10, 20] 1 2).cols) →
      (QSMatrix.ofFlat [10, 20] 1 2).rows = 1 ∧
        (QSMatrix.ofFlat [10, 20] 1 2).cols = (QSMatrix.ofFlat [1, 2, 3, 4] 2 2).cols →
      ∃ C, (QSMatrix.ofFlat [1, 2, 3, 4] 2 2).add (QSMatrix.ofFlat [10, 20] 1 2) = some C ∧
        C.rows = (QSMatrix.ofFlat [1, 2, 3, 4] 2 2).rows ∧
        C.cols = (QSMatrix.ofFlat [1, 2, 3, 4] 2 2).cols ∧
        ∀ i j, i < (QSMatrix.ofFlat [1, 2, 3, 4] 2 2).rows →
          j < (QSMatrix.ofFlat [1, 2, 3, 4] 2 2).cols →
          C.get i j = (QSMatrix.ofFlat [1, 2, 3, 4] 2 2).get i j +
            (QSMatrix.ofFlat [10, 20] 1 2).get 0 j) ∧
    (¬((QSMatrix.ofFlat [1, 2, 3, 4] 2 2).rows = (QSMatrix.ofFlat [10, 20] 1 2).rows ∧
        (QSMatrix.ofFlat [1, 2, 3, 4] 2 2).cols = (QSMatrix.ofFlat [10, 20] 1 2).cols) →
      ¬((QSMatrix.ofFlat [10, 20] 1 2).rows = 1 ∧
        (QSMatrix.ofFlat [10, 20] 1 2).cols = (QSMatrix.ofFlat [1, 2, 3, 4] 2 2).cols) →
      (QSMatrix.ofFlat [1, 2, 3, 4] 2 2).rows = 1 ∧
        (QSMatrix.ofFlat [1, 2, 3, 4] 2 2).cols = (QSMatrix.ofFlat [10, 20] 1 2).cols →
      ∃ C, (QSMatrix.ofFlat [1, 2, 3, 4] 2 2).add (QSMatrix.ofFlat [10, 20] 1 2) = some C ∧
        C.rows = (QSMatrix.ofFlat [10, 20] 1 2).rows ∧
        C.cols = (QSMatrix.ofFlat [10, 20] 1 2).cols ∧
        ∀ i j, i < (QSMatrix.ofFlat [10, 20] 1 2).rows →
          j < (QSMatrix.ofFlat [10, 20] 1 2).cols →
          C.get i j = (QSMatrix.ofFlat [1, 2, 3, 4] 2 2).get 0 j +
            (QSMatrix.ofFlat [10, 20] 1 2).get i j) :=
  ⟨by decide, by decide,
    add_broadcast_three_cases (QSMatrix.ofFlat [1, 2, 3, 4] 2 2)
      (QSMatrix.ofFlat [10, 20] 1 2) (by decide) (by decide)⟩

theorem length_inPlaceLoop (f : Int → Int → Int) (rhsMat : List Int)
    (cnt : Nat) (m : List Int) :
    (inPlaceLoop f rhsMat cnt m).length = m.length := by
  induction cnt with
  | zero => rfl
  | succ i ih => simp [inPlaceLoop, List.length_set, ih]

theorem length_scalarLoop (f : Int → Int) (cnt : Nat) (m : List Int) :
    (scalarLoop f cnt m).length = m.length := by
  induction cnt with
  | zero => rfl
  | succ i ih => simp [scalarLoop, List.length_set, ih]

/-- C3 counterexample: the flat-sequence constructor stores the input vector
verbatim, so `Matrix([0], 2, 2)` has storage length 1, not
`rows * cols = 4` — the invariant fails for a mismatched flat input. -/
theorem ofFlat_breaks_length_invariant :
    ¬ (QSMatrix.ofFlat [0] 2 2).wf := by decide

/-- C3 (amended): `storage.length = rows * cols` holds for the matrices
produced by the filled, nested, random, copy and move constructors and is
preserved by every operation of the interface — copy/move assignment, all
arithmetic and broadcasting operators, the compound-assignment and in-place
operators, transposes, scalar and component-wise operations, element
writes, and the post-states of the non-const queries `vecMul` and
`diag_vec`; for the flat-sequence constructor it holds exactly when the
input sequence already has length `rows * cols` (the constructor performs
no validation). -/
theorem storage_length_invariant :
    (∀ r c v, (QSMatrix.ofFilled r c v).wf) ∧
    (∀ rss C, QSMatrix.ofNested rss = some C → C.wf) ∧
    (∀ l r c, l.length = r * c → (QSMatrix.ofFlat l r c).wf) ∧
    (∀ r c d, (QSMatrix.initRandomQSMatrix r c d).wf) ∧
    (∀ M : QSMatrix, M.wf → (QSMatrix.copyCtor M).wf) ∧
    (∀ M : QSMatrix, M.wf →
      (QSMatrix.moveCtor M).1.wf ∧ (QSMatrix.moveCtor M).2.wf) ∧
    (∀ (lhs rhs : QSMatrix) (isSelf : Bool), lhs.wf → rhs.wf →
      (QSMatrix.copyAssign lhs rhs isSelf).wf) ∧
    (∀ (lhs rhs : QSMatrix) (isSelf : Bool), lhs.wf → rhs.wf →
      (QSMatrix.moveAssign lhs rhs isSelf).1.wf ∧
      (QSMatrix.moveAssign lhs rhs isSelf).2.wf) ∧
    (∀ A B C : QSMatrix, A.wf → B.wf → A.add B = some C → C.wf) ∧
    (∀ A B C : QSMatrix, A.wf → B.wf → A.sub B = some C → C.wf) ∧
    (∀ A B C : QSMatrix, A.mul B = some C → C.wf) ∧
    (∀ A B C : QSMatrix, A.wf → A.addAssign B = some C → C.wf) ∧
    (∀ A B C : QSMatrix, A.wf → A.subAssign B = some C → C.wf) ∧
    (∀ A B C : QSMatrix, A.mulAssign B = some C → C.wf) ∧
    (∀ A : QSMatrix, A.transpose.wf) ∧
    (∀ A : QSMatrix, A.transpose_in_place.wf) ∧
    (∀ A B C : QSMatrix, A.wf → B.wf →
      A.hadamardMultiplication B = some C → C.wf) ∧
    (∀ A B C : QSMatrix, A.wf →
      A.hadamardMultiplicationInPlace B = some C → C.wf) ∧
    (∀ (A : QSMatrix) (s : Int), A.wf →
      (A.scalarAdd s).wf ∧ (A.scalarSub s).wf ∧
      (A.scalarMul s).wf ∧ (A.scalarDiv s).wf) ∧
    (∀ (A : QSMatrix) (s : Int), A.wf → (A.scalarMulAssign s).wf) ∧
    (∀ (A : QSMatrix) (f : Int → Int), A.wf →
      (A.component_wise_transformation f).wf) ∧
    (∀ (A : QSMatrix) (f : Int → Int), A.wf →
      (A.component_wise_transformation_in_place f).wf) ∧
    (∀ (M : QSMatrix) (row col : Nat) (v : Int) (C : QSMatrix), M.wf →
      M.setElem row col v = some C → C.wf) ∧
    (∀ (M M2 : QSMatrix) (v out : List Int), M.wf →
      M.vecMul v = some (out, M2) → M2.wf) ∧
    (∀ M : QSMatrix, M.wf → (M.diag_vec).2.wf) := by
  refine ⟨?_, ?_, ?_, ?_, ?_, ?_, ?_, ?_, ?_, ?_, ?_, ?_, ?_, ?_, ?_, ?_,
    ?_, ?_, ?_, ?_, ?_, ?_, ?_, ?_, ?_⟩
  · intro r c v
    show (List.replicate (r * c) v).length = r * c
    rw [List.length_replicate]
  · intro rss C h
    simp only [QSMatrix.ofNested] at h
    split at h
    · rename_i hall
      injection h with h
      subst h
      show rss.flatten.length = rss.length * _
      apply length_flatten_of_all
      intro rs hrs
      simp only [List.all_eq_true, decide_eq_true_eq] at hall
      exact hall rs hrs
    · exact absurd h (by simp)
  · intro l r c h
    exact h
  · intro r c d
    show ((List.range (r * c)).map d).length = r * c
    rw [List.length_map, List.length_range]
  · intro M h
    exact h
  · intro M h
    exact ⟨h, rfl⟩
  · intro lhs rhs isSelf hl hr
    cases isSelf with
    | false => exact hr
    | true => exact hl
  · intro lhs rhs isSelf hl hr
    cases isSelf with
    | false => exact ⟨hr, rfl⟩
    | true => exact ⟨hl, hr⟩
  · intro A B C hA hB h
    rw [QSMatrix.add] at h
    split_ifs at h with h1 h2 h3
    · injection h with h
      subst h
      exact wf_mk_zipWith A B _ hA hB h1.1 h1.2
    · injection h with h
      subst h
      show (buildMat A.rows A.cols _).length = A.rows * A.cols
      rw [length_buildMat]
    · injection h with h
      subst h
      show (buildMat B.rows A.cols _).length = B.rows * A.cols
      rw [length_buildMat]
  · intro A B C hA hB h
    rw [QSMatrix.sub] at h
    split_ifs at h with h1
    injection h with h
    subst h
    exact wf_mk_zipWith A B _ hA hB h1.1 h1.2
  · intro A B C h
    rw [QSMatrix.mul] at h
    split_ifs at h with h1
    injection h with h
    subst h
    show (iLoop A.mat B.mat A.cols B.cols A.rows
      (List.replicate (A.rows * B.cols) 0)).length = A.rows * B.cols
    rw [length_iLoop, List.length_replicate]
  · intro A B C hA h
    rw [QSMatrix.addAssign] at h
    split_ifs at h with h1
    injection h with h
    subst h
    show (inPlaceLoop _ B.mat (A.rows * A.cols) A.mat).length =
      A.rows * A.cols
    rw [length_inPlaceLoop, hA]
  · intro A B C hA h
    rw [QSMatrix.subAssign] at h
    split_ifs at h with h1
    injection h with h
    subst h
    show (inPlaceLoop _ B.mat (A.rows * A.cols) A.mat).length =
      A.rows * A.cols
    rw [length_inPlaceLoop, hA]
  · intro A B C h
    rw [QSMatrix.mulAssign, QSMatrix.mul] at h
    split_ifs at h with h1
    injection h with h
    subst h
    show (iLoop A.mat B.mat A.cols B.cols A.rows
      (List.replicate (A.rows * B.cols) 0)).length = A.rows * B.cols
    rw [length_iLoop, List.length_replicate]
  · intro A
    show (buildMat A.cols A.rows _).length = A.cols * A.rows
    rw [length_buildMat]
  · intro A
    show (buildMat A.cols A.rows _).length = A.cols * A.rows
    rw [length_buildMat]
  · intro A B C hA hB h
    rw [QSMatrix.hadamardMultiplication] at h
    split_ifs at h with h1
    injection h with h
    subst h
    exact wf_mk_zipWith A B _ hA hB h1.1 h1.2
  · intro A B C hA h
    rw [QSMatrix.hadamardMultiplicationInPlace] at h
    split_ifs at h with h1
    injection h with h
    subst h
    show (inPlaceLoop _ B.mat (A.rows * A.cols) A.mat).length =
      A.rows * A.cols
    rw [length_inPlaceLoop, hA]
  · intro A s hA
    refine ⟨?_, ?_, ?_, ?_⟩ <;>
      · show (A.mat.map _).length = A.rows * A.cols
        rw [List.length_map, hA]
  · intro A s hA
    show (scalarLoop _ (A.rows * A.cols) A.mat).length = A.rows * A.cols
    rw [length_scalarLoop, hA]
  · intro A f hA
    show (A.mat.map f).length = A.rows * A.cols
    rw [List.length_map, hA]
  · intro A f hA
    show (A.mat.map f).length = A.rows * A.cols
    rw [List.length_map, hA]
  · intro M row col v C hM h
    rw [QSMatrix.setElem] at h
    split_ifs at h with h1
    injection h with h
    subst h
    show (M.mat.set (row * M.cols + col) v).length = M.rows * M.cols
    rw [List.length_set, hM]
  · intro M M2 v out hM h
    rw [QSMatrix.vecMul] at h
    split_ifs at h with h1
    injection h with h
    rw [Prod.mk.injEq] at h
    obtain ⟨hout, hM2⟩ := h
    subst hM2
    exact hM
  · intro M hM
    exact hM

/-- C4: when none of the three broadcasting shape cases applies, `A + B`
reaches the `assert(false)` branch — a fail-fast halt (`none`), never a
returned matrix value. -/
theorem add_no_case_halts (A B : QSMatrix)
    (h1 : ¬(A.rows = B.rows ∧ A.cols = B.cols))
    (h2 : ¬(B.rows = 1 ∧ B.cols = A.cols))
    (h3 : ¬(A.rows = 1 ∧ A.cols = B.cols)) :
    A.add B = none := by
  rw [QSMatrix.add, if_neg h1, if_neg h2, if_neg h3]

/-- C4 witness: a `2 x 2` matrix plus a `3 x 3` matrix matches no case and
halts. -/
theorem add_no_case_halts_witness :
    ¬((QSMatrix.ofFilled 2 2 0).rows = (QSMatrix.ofFilled 3 3 0).rows ∧
      (QSMatrix.ofFilled 2 2 0).cols = (QSMatrix.ofFilled 3 3 0).cols) ∧
    ¬((QSMatrix.ofFilled 3 3 0).rows = 1 ∧
      (QSMatrix.ofFilled 3 3 0).cols = (QSMatrix.ofFilled 2 2 0).cols) ∧
    ¬((QSMatrix.ofFilled 2 2 0).rows = 1 ∧
      (QSMatrix.ofFilled 2 2 0).cols = (QSMatrix.ofFilled 3 3 0).cols) ∧
    (QSMatrix.ofFilled 2 2 0).add (QSMatrix.ofFilled 3 3 0) = none :=
  ⟨by decide, by decide, by decide,
    add_no_case_halts (QSMatrix.ofFilled 2 2 0) (QSMatrix.ofFilled 3 3 0)
      (by decide) (by decide) (by decide)⟩

/-- C5: `transpose` produces a `(cols, rows)` matrix with
`result(j,i) = this(i,j)`, and transposing twice restores the original
matrix. -/
theorem transpose_involutive_spec (A : QSMatrix) (hA : A.wf) :
    A.transpose.rows = A.cols ∧ A.transpose.cols = A.rows ∧
    (∀ i j, i < A.rows → j < A.cols → A.transpose.get j i = A.get i j) ∧
    A.transpose.transpose = A := by
  obtain ⟨r, c, m⟩ := A
  have hm : m.length = r * c := hA
  refine ⟨rfl, rfl, ?_, ?_⟩
  · intro i j hi hj
    exact getD_buildMat c r _ j i hj hi
  · simp only [QSMatrix.transpose, QSMatrix.mk.injEq, true_and]
    apply list_ext_getD
    · rw [length_buildMat, hm]
    · intro idx hidx
      rw [length_buildMat] at hidx
      have hc : 0 < c := by
        rcases Nat.eq_zero_or_pos c with h0 | h0
        · rw [h0] at hidx; simp at hidx
        · exact h0
      have hi : idx / c < r := by
        rw [Nat.div_lt_iff_lt_mul hc]; exact hidx
      have hj : idx % c < c := Nat.mod_lt idx hc
      have hidx2 : idx / c * c + idx % c = idx := by
        have hdm := Nat.div_add_mod idx c
        rw [Nat.mul_comm (idx / c) c]
        exact hdm
      rw [getD_buildMat_div_mod r c _ idx hidx]
      have step1 : (buildMat c r
          (fun j i => QSMatrix.get ⟨r, c, m⟩ i j)).getD
            (idx % c * r + idx / c) 0 =
          QSMatrix.get ⟨r, c, m⟩ (idx / c) (idx % c) :=
        getD_buildMat c r _ (idx % c) (idx / c) hj hi
      have step2 : m.getD (idx / c * c + idx % c) 0 = m.getD idx 0 := by
        rw [hidx2]
      exact step1.trans step2

/-- C5 witness: the theorem at the concrete `2 x 3` matrix
`[[1,2,3],[4,5,6]]`. -/
theorem transpose_involutive_spec_witness :
    (QSMatrix.ofFlat [1, 2, 3, 4, 5, 6] 2 3).wf ∧
    ((QSMatrix.ofFlat [1, 2, 3, 4, 5, 6] 2 3).transpose.rows =
        (QSMatrix.ofFlat [1, 2, 3, 4, 5, 6] 2 3).cols ∧
      (QSMatrix.ofFlat [1, 2, 3, 4, 5, 6] 2 3).transpose.cols =
        (QSMatrix.ofFlat [1, 2, 3, 4, 5, 6] 2 3).rows ∧
      (∀ i j, i < (QSMatrix.ofFlat [1, 2, 3, 4, 5, 6] 2 3).rows →
        j < (QSMatrix.ofFlat [1, 2, 3, 4, 5, 6] 2 3).cols →
        (QSMatrix.ofFlat [1, 2, 3, 4, 5, 6] 2 3).transpose.get j i =
          (QSMatrix.ofFlat [1, 2, 3, 4, 5, 6] 2 3).get i j) ∧
      (QSMatrix.ofFlat [1, 2, 3, 4, 5, 6] 2 3).transpose.transpose =
        QSMatrix.ofFlat [1, 2, 3, 4, 5, 6] 2 3) :=
  ⟨by decide, transpose_involutive_spec _ (by decide)⟩

/-- C6: for same-shaped matrices, `(A + B) - B = A` exactly, with `+` the
elementwise addition branch and `-` the elementwise subtraction. -/
theorem add_sub_cancel_mat (A B : QSMatrix) (hA : A.wf) (hB : B.wf)
    (hr : A.rows = B.rows) (hc : A.cols = B.cols) :
    (A.add B).bind (fun C => C.sub B) = some A := by
  rw [QSMatrix.add, if_pos ⟨hr, hc⟩]
  show QSMatrix.sub ⟨A.rows, A.cols,
    List.zipWith (fun a b => a + b) A.mat B.mat⟩ B = some A
  rw [QSMatrix.sub, if_pos ⟨hr, hc⟩]
  have hlen : A.mat.length = B.mat.length := by rw [hA, hB, hr, hc]
  rw [zipWith_sub_add_cancel A.mat B.mat hlen]

/-- C6 witness: the theorem at `[[1,2],[3,4]]` and `[[5,6],[7,8]]`. -/
theorem add_sub_cancel_mat_witness :
    (QSMatrix.ofFlat [1, 2, 3, 4] 2 2).wf ∧
    (QSMatrix.ofFlat [5, 6, 7, 8] 2 2).wf ∧
    (QSMatrix.ofFlat [1, 2, 3, 4] 2 2).rows =
      (QSMatrix.ofFlat [5, 6, 7, 8] 2 2).rows ∧
    (QSMatrix.ofFlat [1, 2, 3, 4] 2 2).cols =
      (QSMatrix.ofFlat [5, 6, 7, 8] 2 2).cols ∧
    ((QSMatrix.ofFlat [1, 2, 3, 4] 2 2).add
        (QSMatrix.ofFlat [5, 6, 7, 8] 2 2)).bind
      (fun C => C.sub (QSMatrix.ofFlat [5, 6, 7, 8] 2 2)) =
      some (QSMatrix.ofFlat [1, 2, 3, 4] 2 2) :=
  ⟨by decide, by decide, rfl, rfl,
    add_sub_cancel_mat _ _ (by decide) (by decide) rfl rfl⟩

/-- C7: after a move construction or (non-self) move assignment the source
is the valid degenerate `0 x 0` state, and copy self-assignment leaves the
matrix unchanged. -/
theorem move_resets_source_selfassign_noop (lhs rhs M : QSMatrix) :
    (QSMatrix.moveCtor rhs).2.rows = 0 ∧ (QSMatrix.moveCtor rhs).2.cols = 0 ∧
    (QSMatrix.moveAssign lhs rhs false).2.rows = 0 ∧
    (QSMatrix.moveAssign lhs rhs false).2.cols = 0 ∧
    QSMatrix.copyAssign M M true = M :=
  ⟨rfl, rfl, rfl, rfl, rfl⟩

/-- C8: `diag_vec` returns `min rows cols` diagonal elements `(i, i)`; on
`[[1,2,3],[4,5,6]]` it returns `[1, 5]`. -/
theorem diag_vec_spec (M : QSMatrix) :
    (M.diag_vec).1.length = min M.rows M.cols ∧
    (∀ i, i < min M.rows M.cols → (M.diag_vec).1.getD i 0 = M.get i i) ∧
    (∃ N, QSMatrix.ofNested [[1, 2, 3], [4, 5, 6]] = some N ∧
      (N.diag_vec).1 = [1, 5]) := by
  refine ⟨?_, ?_, ?_⟩
  · show ((List.range (min M.rows M.cols)).map _).length = _
    rw [List.length_map, List.length_range]
  · intro i hi
    exact getD_map_range _ i _ hi
  · exact ⟨⟨2, 3, [1, 2, 3, 4, 5, 6]⟩, by decide, by decide⟩

/-- C10: matrix-vector multiplication and `diag_vec`, though non-const
methods, leave `*this` unchanged (same `rows`, `cols` and storage). -/
theorem vecMul_diag_vec_frame (M : QSMatrix) (v : List Int)
    (h : v.length = M.cols) :
    (∃ out, M.vecMul v = some (out, M)) ∧ (M.diag_vec).2 = M := by
  refine ⟨⟨(List.range M.rows).map (fun i =>
    ((List.range M.cols).map (fun j => M.get i j * v.getD j 0)).sum), ?_⟩, rfl⟩
  rw [QSMatrix.vecMul, if_pos h]

/-- C10 witness: the theorem at `[[1,2],[3,4]]` and the vector `[1,1]`. -/
theorem vecMul_diag_vec_frame_witness :
    ([1, 1] : List Int).length = (QSMatrix.ofFlat [1, 2, 3, 4] 2 2).cols ∧
    ((∃ out, (QSMatrix.ofFlat [1, 2, 3, 4] 2 2).vecMul [1, 1] =
        some (out, QSMatrix.ofFlat [1, 2, 3, 4] 2 2)) ∧
      ((QSMatrix.ofFlat [1, 2, 3, 4] 2 2).diag_vec).2 =
        QSMatrix.ofFlat [1, 2, 3, 4] 2 2) :=
  ⟨rfl, vecMul_diag_vec_frame _ [1, 1] rfl⟩

/-- C1 witness: the theorem at `[[1,2],[3,4]] * [[5,6],[7,8]]`. -/
theorem mul_ikj_refines_naive_witness :
    (QSMatrix.ofFlat [1, 2, 3, 4] 2 2).cols =
      (QSMatrix.ofFlat [5, 6, 7, 8] 2 2).rows ∧
    ((QSMatrix.ofFlat [1, 2, 3, 4] 2 2).mul (QSMatrix.ofFlat [5, 6, 7, 8] 2 2) =
        some ((QSMatrix.ofFlat [1, 2, 3, 4] 2 2).matMulSpec
          (QSMatrix.ofFlat [5, 6, 7, 8] 2 2)) ∧
      ((QSMatrix.ofFlat [1, 2, 3, 4] 2 2).matMulSpec
          (QSMatrix.ofFlat [5, 6, 7, 8] 2 2)).rows =
        (QSMatrix.ofFlat [1, 2, 3, 4] 2 2).rows ∧
      ((QSMatrix.ofFlat [1, 2, 3, 4] 2 2).matMulSpec
          (QSMatrix.ofFlat [5, 6, 7, 8] 2 2)).cols =
        (QSMatrix.ofFlat [5, 6, 7, 8] 2 2).cols ∧
      ∀ i j, i < (QSMatrix.ofFlat [1, 2, 3, 4] 2 2).rows →
        j < (QSMatrix.ofFlat [5, 6, 7, 8] 2 2).cols →
        ((QSMatrix.ofFlat [1, 2, 3, 4] 2 2).matMulSpec
            (QSMatrix.ofFlat [5, 6, 7, 8] 2 2)).get i j =
          ((List.range (QSMatrix.ofFlat [1, 2, 3, 4] 2 2).cols).map
            (fun k => (QSMatrix.ofFlat [1, 2, 3, 4] 2 2).get i k *
              (QSMatrix.ofFlat [5, 6, 7, 8] 2 2).get k j)).sum) :=
  ⟨rfl, mul_ikj_refines_naive _ _ rfl⟩
